import Mathlib

/-!
Verification of the manifest generator program `generate_strudel_manifest.py`.

The program scans a directory tree, filters paths with a small
gitignore-style matcher, fingerprints the set of included relative path
names, and regenerates a grouped JSON manifest when that fingerprint (or
the manifest file itself) is missing or out of date.

This file gives a shallow embedding of the program: relative paths are
lists of segments, the directory tree is an inductive type mirroring what
the walk visits, the `md5` hex digest and the JSON renderer are abstract
function parameters (they are library collaborators, not code of the
program), and the stateful parts of `main` act on an explicit record of
the relevant file-system state.
-/

/-- Python `str.startswith`, modelled on the underlying character list. -/
def pyStartswith (s pre : String) : Bool := pre.toList.isPrefixOf s.toList

/-- Python `str.endswith`, modelled on the underlying character list. -/
def pyEndswith (s suf : String) : Bool := suf.toList.isSuffixOf s.toList

/-- Python `str.rstrip("/")`: remove every trailing slash. -/
def rstripSlash (p : String) : String :=
  String.mk ((p.toList.reverse.dropWhile (fun c => c = '/')).reverse)

/-- Python `s[1:]`: drop the first character. -/
def pyDrop1 (s : String) : String := String.mk (s.toList.drop 1)

/-- The ASCII whitespace characters stripped by Python `str.strip()`
(the inputs of this program are ASCII). -/
def isPySpace (c : Char) : Bool :=
  c = ' ' || c = '\t' || c = '\n' || c = '\r' || c = '\x0b' || c = '\x0c'

/-- Python `str.strip()`: drop whitespace from both ends (ASCII model). -/
def pyStrip (s : String) : String :=
  String.mk (((s.toList.dropWhile isPySpace).reverse.dropWhile isPySpace).reverse)

/-- ASCII lower-casing of one character; the strings this program
compares are ASCII, where `str.lower` and `str.casefold` coincide. -/
def asciiLower (c : Char) : Char :=
  if 'A' ≤ c ∧ c ≤ 'Z' then Char.ofNat (c.toNat + 32) else c

/-- Python `str.lower()` (ASCII model). -/
def pyLower (s : String) : String := String.mk (s.toList.map asciiLower)

/-- Python `str.casefold()` (ASCII model, where it agrees with `lower`). -/
def pyCasefold (s : String) : String := String.mk (s.toList.map asciiLower)

/-- Python `s.split("/")` on the character list. -/
def splitSlashCh : List Char → List String
  | [] => [""]
  | c :: rest =>
    match splitSlashCh rest with
    | [] => []
    | h :: t => if c = '/' then "" :: h :: t else String.mk (c :: h.toList) :: t

/-- Python `s.split("/")`. -/
def splitSlash (s : String) : List String := splitSlashCh s.toList

/-- Code-point comparison of character lists: the lexicographic order
Python uses to compare strings. -/
def charListLe : List Char → List Char → Bool
  | [], _ => true
  | _ :: _, [] => false
  | a :: as, b :: bs => if a = b then charListLe as bs else decide (a < b)

/-- Python string `<=` (lexicographic by code point). -/
def strLe (a b : String) : Bool := charListLe a.toList b.toList

/-- The ordering relation used by Python `sorted` on strings. -/
def strLeRel (a b : String) : Prop := strLe a b = true

instance : DecidableRel strLeRel := fun a b => inferInstanceAs (Decidable (strLe a b = true))

/-- Python `sorted` on strings: a sort of the list under the code-point
order (the order is antisymmetric, so every correct sort agrees). -/
def pysorted (l : List String) : List String := l.insertionSort strLeRel

/-- The key-based ordering of `sort(key=lambda s: s.casefold())`. -/
def casefoldLeRel (a b : String) : Prop := strLe (pyCasefold a) (pyCasefold b) = true

instance : DecidableRel casefoldLeRel := fun a b =>
  inferInstanceAs (Decidable (strLe (pyCasefold a) (pyCasefold b) = true))

/-- Python `list.sort(key=lambda s: s.casefold())`: a stable sort by the
case-folded key; `insertionSort` is stable, as is Python's sort, and a
stable sort under a fixed total preorder has a unique result. -/
def sortCasefold (l : List String) : List String := l.insertionSort casefoldLeRel

/-- `"/".join(parts)`: the `Path.as_posix()` form of a relative path
given as its list of segments. -/
def posixOf : List String → String
  | [] => ""
  | [p] => p
  | p :: q :: ps => p ++ "/" ++ posixOf (q :: ps)

/-- Glob matching of Python `fnmatch.fnmatch` restricted to the `*` and
`?` wildcards (POSIX case handling; the `[...]` character classes, which
no pattern of this program uses, are treated as literal characters).
First argument is the pattern, second the name, both as char lists. -/
def globMatch : List Char → List Char → Bool
  | [], s => s.isEmpty
  | '*' :: ps, s => s.tails.any (fun t => globMatch ps t)
  | '?' :: ps, s =>
    match s with
    | [] => false
    | _ :: cs => globMatch ps cs
  | c :: ps, s =>
    match s with
    | [] => false
    | c2 :: cs => c = c2 && globMatch ps cs

/-- Python `fnmatch.fnmatch(name, pat)` (see `globMatch`). -/
def fnmatch (name pat : String) : Bool := globMatch pat.toList name.toList

/-- `is_hidden` from the source: some segment of the relative path starts
with a dot. -/
def is_hidden (parts : List String) : Bool :=
  parts.any (fun part => pyStartswith part ".")

/-- One iteration of the pattern loop of `matches_patterns`: `some b`
when this pattern matches (the loop then returns `b`, the negation of the
pattern's negated flag), `none` when the loop continues. -/
def matchOne (s : String) (pat : String) : Option Bool :=
  let negated := pyStartswith pat "!"
  let p := if negated then pyDrop1 pat else pat
  if pyEndswith p "/" then
    let p_match := rstripSlash p
    if s == p_match || pyStartswith s (p_match ++ "/") then some (!negated) else none
  else if pyStartswith p "/" then
    if fnmatch ("/" ++ s) p then some (!negated) else none
  else if fnmatch s p || (splitSlash s).any (fun part => fnmatch part p) then some (!negated)
  else none

/-- `matches_patterns` from the source, taking the already-normalized
posix form of the relative path (`rel_path.as_posix()`): the loop returns
`not negated` at the first matching pattern and `False` when no pattern
matches. -/
def matches_patterns (s : String) (patterns : List String) : Bool :=
  match patterns with
  | [] => false
  | pat :: rest =>
    match matchOne s pat with
    | some b => b
    | none => matches_patterns s rest

/-- A directory listing as visited by `os.walk`: a sequence of file
entries and subdirectory entries (each subdirectory carrying its own
listing). The listing order stands for the filesystem iteration order,
which the program treats as arbitrary. -/
inductive Entries where
  | nil : Entries
  | file (name : String) (rest : Entries) : Entries
  | dir (name : String) (children : Entries) (rest : Entries) : Entries
deriving DecidableEq

/-- `iter_all_files` from the source: walk the tree, prune a subdirectory
(never visiting its contents) when its relative path is hidden or matches
the ignore patterns, and yield each file whose relative path is neither
hidden nor matched. -/
def iter_all_files (ignore_patterns : List String) (relDir : List String) :
    Entries → List (List String)
  | .nil => []
  | .file f rest =>
    let rel_file := relDir ++ [f]
    (if is_hidden rel_file || matches_patterns (posixOf rel_file) ignore_patterns then []
     else [rel_file]) ++ iter_all_files ignore_patterns relDir rest
  | .dir d children rest =>
    let rel_sub := relDir ++ [d]
    (if is_hidden rel_sub || matches_patterns (posixOf rel_sub) ignore_patterns then []
     else iter_all_files ignore_patterns (relDir ++ [d]) children)
      ++ iter_all_files ignore_patterns relDir rest

/-- `compute_tree_hash` from the source, over the scanned relative paths.
`H` models `hashlib.md5` as hex digest of the accumulated update bytes
(the digest algorithm is a library collaborator); the accumulated bytes
are the sorted posix path strings, each followed by a newline. -/
def compute_tree_hash (H : String → String) (scanned : List (List String)) : String :=
  let rel_paths := pysorted (scanned.map posixOf)
  H (rel_paths.foldl (fun acc p => acc ++ p ++ "\n") "")

/-- Modelled from the spec: the TreeHasher contract of spec section 4.3 —
the digest of the newline-terminated concatenation of the sorted,
normalized path strings. -/
def tree_hash_spec (H : String → String) (scanned : List (List String)) : String :=
  H (String.join ((pysorted (scanned.map posixOf)).map (fun p => p ++ "\n")))

/-- Python `pathlib`'s `suffix` of a file name: the extension of the last
component, i.e. `name[i:]` for the last dot position `i` provided
`0 < i < len(name) - 1`, else the empty string. -/
def pySuffix (name : String) : String :=
  let rev := name.toList.reverse
  let post := rev.takeWhile (fun c => c ≠ '.')
  if post.length = rev.length then ""
  else if post.isEmpty then ""
  else if post.length + 1 = rev.length then ""
  else String.mk ('.' :: post.reverse)

/-- A value of the manifest mapping: the reserved base-URL string or a
group's list of file paths. -/
inductive ManifestValue where
  | url (s : String) : ManifestValue
  | files (l : List String) : ManifestValue
deriving DecidableEq

/-- `per_dir.setdefault(top, []).append(v)`: extend the list at an
existing key in place, or append a new key with a singleton list. -/
def addToGroup (m : List (String × List String)) (k : String) (v : String) :
    List (String × List String) :=
  if m.any (fun kv => kv.1 == k) then
    m.map (fun kv => if kv.1 == k then (kv.1, kv.2 ++ [v]) else kv)
  else m ++ [(k, [v])]

/-- `OrderedDict` assignment `ordered[k] = v`: overwrite the value in
place when the key exists (keeping its position), else append. -/
def odInsert (m : List (String × ManifestValue)) (k : String) (v : ManifestValue) :
    List (String × ManifestValue) :=
  if m.any (fun kv => kv.1 == k) then
    m.map (fun kv => if kv.1 == k then (kv.1, v) else kv)
  else m ++ [(k, v)]

/-- The loop body collecting `.wav` files per top-level directory in
`build_manifest`: skip a path whose lower-cased suffix is not `.wav`,
whose segment count is below two, or whose top-level directory is hidden;
otherwise record its posix form under its top-level directory. -/
def perDirStep (acc : List (String × List String)) (p : List String) :
    List (String × List String) :=
  if pyLower (pySuffix (p.getLastD "")) ≠ ".wav" then acc
  else if p.length < 2 then acc
  else if pyStartswith (p.headD "") "." then acc
  else addToGroup acc (p.headD "") (posixOf p)

/-- `build_manifest` from the source, over the scanned relative paths
(the source obtains them by `iter_all_files` with the `.gitignore`
patterns): keep `.wav` files (case-insensitive suffix) lying in a
non-hidden top-level directory, group them by top-level directory with
case-insensitively sorted file lists, and emit the ordered mapping whose
first inserted key `"_base"` holds the base URL, followed by the group
keys in sorted order. -/
def build_manifest (base_url : String) (scanned : List (List String)) :
    List (String × ManifestValue) :=
  let per_dir := scanned.foldl perDirStep []
  let per_dir2 := per_dir.map (fun kv => (kv.1, sortCasefold kv.2))
  (pysorted (per_dir2.map Prod.fst)).foldl
    (fun acc k => odInsert acc k (ManifestValue.files ((per_dir2.lookup k).getD [])))
    (odInsert [] "_base" (ManifestValue.url base_url))

/-- `BASE_URL` from the source. -/
def BASE_URL : String := "https://raw.githubusercontent.com/rorads/strudel_wax/main/"

/-- `MANIFEST_FILENAME` from the source. -/
def MANIFEST_FILENAME : String := "strudel.json"

/-- `HASH_FILENAME` from the source. -/
def HASH_FILENAME : String := ".manifest_hash"

/-- The state of the stored-fingerprint file: absent, present but
unreadable (reading raises), or present with the given text. -/
inductive HashFile where
  | absent : HashFile
  | unreadable : HashFile
  | content (s : String) : HashFile
deriving DecidableEq

/-- The file-system state `main` interacts with: the canonical manifest
file's bytes (if present), the fingerprint file, and the archive
directory's entries as (timestamped name, moved bytes) pairs. -/
structure FsState where
  manifestFile : Option String
  hashFile : HashFile
  archive : List (String × String)
deriving DecidableEq

/-- `read_stored_hash` from the source: `None` when the file is absent or
unreadable, else the stripped text. -/
def read_stored_hash : HashFile → Option String
  | .absent => none
  | .unreadable => none
  | .content s => some (pyStrip s)

/-- `write_stored_hash` from the source: write the value plus a newline. -/
def write_stored_hash (st : FsState) (value : String) : FsState :=
  { st with hashFile := .content (value ++ "\n") }

/-- `archive_existing_manifest` from the source: when a manifest exists
at the canonical location, move (not copy) it into the archive under a
UTC-timestamped name. -/
def archive_existing_manifest (ts : String) (st : FsState) : FsState :=
  match st.manifestFile with
  | none => st
  | some m =>
    { st with manifestFile := none,
              archive := st.archive ++ [("strudel." ++ ts ++ ".json", m)] }

/-- The status line printed on the up-to-date path. -/
def upToDateMsg : String := "Manifest up-to-date; no changes detected."

/-- The status line printed after regenerating. -/
def wroteMsg : String :=
  "Wrote " ++ MANIFEST_FILENAME ++ " and updated " ++ HASH_FILENAME ++ " in project root."

/-- `main` from the source over the explicit state (named `mainRun` only
because Lean reserves `main` for program entry points): compute the current
fingerprint, compare with the stored one, and either report up-to-date or
archive the old manifest, write the new manifest (rendered by the
collaborator `render`, plus the trailing newline), and persist the
fingerprint. Returns the new state, the exit code, and the status line. -/
def mainRun (H : String → String) (render : List (String × ManifestValue) → String)
    (tree : Entries) (ignore_patterns : List String) (ts : String) (st : FsState) :
    FsState × Nat × String :=
  let current_hash := compute_tree_hash H (iter_all_files ignore_patterns [] tree)
  let stored_hash := read_stored_hash st.hashFile
  let should_generate : Bool :=
    decide (stored_hash ≠ some current_hash) || decide (st.hashFile = .absent)
      || decide (st.manifestFile = none)
  if should_generate = false then (st, 0, upToDateMsg)
  else
    let st1 := archive_existing_manifest ts st
    let manifest := build_manifest BASE_URL (iter_all_files ignore_patterns [] tree)
    let st2 := { st1 with manifestFile := some (render manifest ++ "\n") }
    let st3 := write_stored_hash st2 current_hash
    (st3, 0, wroteMsg)

/-- The directory tree of the C3 scenario: `kicks/Kick1.wav`,
`kicks/kick2.WAV`, `snares/Snare.wav`, a root-level `readme.wav`, and a
`tmp/` directory containing `tmp/x.wav`. -/
def c3Tree : Entries :=
  .dir "kicks" (.file "Kick1.wav" (.file "kick2.WAV" .nil))
    (.dir "snares" (.file "Snare.wav" .nil)
      (.file "readme.wav" (.dir "tmp" (.file "x.wav" .nil) .nil)))

/-- The directory tree of the C7 scenario: `build/a.wav`,
`build/sub/b.wav`, a sibling `build2/c.wav`, and a root file. -/
def c7Tree : Entries :=
  .dir "build" (.file "a.wav" (.dir "sub" (.file "b.wav" .nil) .nil))
    (.dir "build2" (.file "c.wav" .nil) (.file "root.wav" .nil))

/-- Modelled from the spec: the Stale condition of spec section 4.5 /
claim C4 — the stored fingerprint is absent, unreadable, or differs from
the current fingerprint, or the canonical manifest file is absent. -/
def specStale (current : String) (st : FsState) : Bool :=
  (match st.hashFile with
   | .absent => true
   | .unreadable => true
   | .content v => pyStrip v != current) || st.manifestFile.isNone

/-- The root listing a walk actually sees, given the tool's own on-disk
state: the canonical manifest `strudel.json` is a non-hidden root-level
file and is scanned whenever it exists. The fingerprint file
`.manifest_hash` and the archive directory `.archive-manifests` begin
with a dot, so `is_hidden` prunes them from every walk (see
`iter_hidden_file` and `iter_hidden_dir`); they are therefore omitted
here. -/
def scannedTree (st : FsState) (tree : Entries) : Entries :=
  match st.manifestFile with
  | some _ => .file MANIFEST_FILENAME tree
  | none => tree

/-- Two consecutive invocations of `main` against the same root with no
external change: between the runs only the tool's own writes alter the
root, so each run scans the manifest file exactly when the state it
starts from holds one. -/
def runTwice (H : String → String) (render : List (String × ManifestValue) → String)
    (tree : Entries) (pats : List String) (ts1 ts2 : String) (st : FsState) :
    FsState × Nat × String :=
  let r1 := mainRun H render (scannedTree st tree) pats ts1 st
  mainRun H render (scannedTree r1.1 tree) pats ts2 r1.1

@[simp]
theorem toList_mk (l : List Char) : (String.mk l).toList = l := rfl

@[simp]
theorem toList_append (s t : String) : (s ++ t).toList = s.toList ++ t.toList := rfl

theorem string_eq_iff_toList {s t : String} : s = t ↔ s.toList = t.toList :=
  ⟨fun h => h ▸ rfl, fun h => String.ext h⟩

theorem charListLe_total (l1 l2 : List Char) :
    charListLe l1 l2 = true ∨ charListLe l2 l1 = true := by
  induction l1 generalizing l2 with
  | nil => exact Or.inl rfl
  | cons a as ih =>
    cases l2 with
    | nil => exact Or.inr rfl
    | cons b bs =>
      by_cases hab : a = b
      · subst hab
        simpa [charListLe] using ih bs
      · rcases lt_trichotomy a b with h | h | h
        · exact Or.inl (by simp [charListLe, hab, h])
        · exact absurd h hab
        · exact Or.inr (by simp [charListLe, Ne.symm hab, h, not_lt_of_gt h])

theorem charListLe_trans {l1 l2 l3 : List Char} (h12 : charListLe l1 l2 = true)
    (h23 : charListLe l2 l3 = true) : charListLe l1 l3 = true := by
  induction l1 generalizing l2 l3 with
  | nil => rfl
  | cons a as ih =>
    cases l2 with
    | nil => simp [charListLe] at h12
    | cons b bs =>
      cases l3 with
      | nil => simp [charListLe] at h23
      | cons c cs =>
        by_cases hab : a = b
        · subst hab
          by_cases hbc : a = c
          · subst hbc
            simp only [charListLe, if_pos rfl] at h12 h23 ⊢
            exact ih h12 h23
          · simpa [charListLe, hbc] using (by simpa [charListLe, hbc] using h23)
        · by_cases hbc : b = c
          · subst hbc
            simpa [charListLe, hab] using (by simpa [charListLe, hab] using h12)
          · have h1 : a < b := by simpa [charListLe, hab] using h12
            have h2 : b < c := by simpa [charListLe, hbc] using h23
            have hac : a < c := lt_trans h1 h2
            simp [charListLe, ne_of_lt hac, hac]

theorem charListLe_antisymm {l1 l2 : List Char} (h12 : charListLe l1 l2 = true)
    (h21 : charListLe l2 l1 = true) : l1 = l2 := by
  induction l1 generalizing l2 with
  | nil =>
    cases l2 with
    | nil => rfl
    | cons b bs => simp [charListLe] at h21
  | cons a as ih =>
    cases l2 with
    | nil => simp [charListLe] at h12
    | cons b bs =>
      by_cases hab : a = b
      · subst hab
        simp only [charListLe, if_pos rfl] at h12 h21
        exact congrArg _ (ih h12 h21)
      · have h1 : a < b := by simpa [charListLe, hab] using h12
        have h2 : b < a := by simpa [charListLe, Ne.symm hab] using h21
        exact absurd h2 (not_lt_of_gt h1)

instance : IsTotal String strLeRel :=
  ⟨fun a b => charListLe_total a.toList b.toList⟩

instance : IsTrans String strLeRel :=
  ⟨fun _ _ _ h1 h2 => charListLe_trans h1 h2⟩

instance : IsAntisymm String strLeRel :=
  ⟨fun _ _ h1 h2 => String.ext (charListLe_antisymm h1 h2)⟩

theorem pysorted_perm (l : List String) : (pysorted l).Perm l :=
  List.perm_insertionSort strLeRel l

theorem pysorted_eq_of_perm {l1 l2 : List String} (h : l1.Perm l2) :
    pysorted l1 = pysorted l2 :=
  List.eq_of_perm_of_sorted ((pysorted_perm l1).trans (h.trans (pysorted_perm l2).symm))
    (List.sorted_insertionSort strLeRel l1) (List.sorted_insertionSort strLeRel l2)

@[simp]
theorem data_append (s t : String) : (s ++ t).data = s.data ++ t.data := rfl

theorem data_newline : ("\n" : String).data = ['\n'] := rfl

theorem foldl_append_data (l : List String) (acc : String) :
    (l.foldl (fun a p => a ++ p ++ "\n") acc).data
      = acc.data ++ (l.map (fun p => p.data ++ ['\n'])).flatten := by
  induction l generalizing acc with
  | nil => simp
  | cons p rest ih => simp [List.foldl_cons, ih, data_newline]

theorem join_data (l : List String) :
    (String.join l).data = (l.map String.data).flatten := by
  have key : ∀ acc : String, (l.foldl (fun r s => r ++ s) acc).data
      = acc.data ++ (l.map String.data).flatten := by
    induction l with
    | nil => simp
    | cons p rest ih => intro acc; simp [List.foldl_cons, ih]
  simpa [String.join] using key ""

/-- C2: the tree fingerprint is a pure function of the set of included
relative path names: two duplicate-free scanned sequences with the same
members yield the identical digest (file contents and metadata do not
occur in the computation at all). -/
theorem C2_hash_order_independent (H : String → String) (l1 l2 : List (List String))
    (h1 : l1.Nodup) (h2 : l2.Nodup) (hmem : ∀ p, p ∈ l1 ↔ p ∈ l2) :
    compute_tree_hash H l1 = compute_tree_hash H l2 := by
  have hperm : l1.Perm l2 := (List.perm_ext_iff_of_nodup h1 h2).mpr hmem
  unfold compute_tree_hash
  rw [pysorted_eq_of_perm (hperm.map posixOf)]

/-- Witness for C2 at a concrete pair of reordered scans. -/
theorem C2_hash_order_independent_witness :
    compute_tree_hash (fun s => s) [["a"], ["b", "c"]]
      = compute_tree_hash (fun s => s) [["b", "c"], ["a"]] :=
  C2_hash_order_independent (fun s => s) [["a"], ["b", "c"]] [["b", "c"], ["a"]]
    (by decide) (by decide)
    (fun p => by
      simp only [List.mem_cons, List.not_mem_nil, or_false]
      tauto)

/-- C6: the fingerprint is the digest of the newline-terminated
concatenation of the sorted normalized path strings — the incremental
hash updates of `compute_tree_hash` feed exactly that byte stream. -/
theorem C6_tree_hash_refines_spec (H : String → String) (scanned : List (List String)) :
    compute_tree_hash H scanned = tree_hash_spec H scanned := by
  unfold compute_tree_hash tree_hash_spec
  refine congrArg H (String.ext ?_)
  rw [foldl_append_data, join_data]
  simp [List.map_map, Function.comp_def, data_newline]

/-- C3: on the scenario tree with `tmp/` ignored, the manifest maps the
reserved first key to the base URL, then `kicks` (case-insensitively
sorted file list) and `snares`; the root-level `readme.wav` and
everything under `tmp/` are absent, and the group keys after the reserved
key are in ascending case-sensitive order. -/
theorem C3_manifest_scenario :
    build_manifest BASE_URL (iter_all_files ["tmp/"] [] c3Tree)
      = [("_base", ManifestValue.url BASE_URL),
         ("kicks", ManifestValue.files ["kicks/Kick1.wav", "kicks/kick2.WAV"]),
         ("snares", ManifestValue.files ["snares/Snare.wav"])] := by decide

/-- C1 counterexample: with patterns `["*.wav", "!keep.wav"]` the path
`keep.wav` IS excluded — the loop returns at the first match (`*.wav`),
so the later negated pattern is never consulted, contradicting the
claimed last-match-wins outcome. -/
theorem C1_counterexample :
    matches_patterns "keep.wav" ["*.wav", "!keep.wav"] = true := by decide

/-- C1 (amended): pattern evaluation is first-match-wins: the verdict of
the first matching pattern (positive or negated) is returned and all
later patterns are ignored; with no match from any pattern the path is
not excluded; hence for `["*.wav", "!keep.wav"]` both `keep.wav` and
`skip.wav` are excluded. -/
theorem C1_first_match_wins (s pat : String) (b : Bool) (rest later : List String)
    (h : matchOne s pat = some b) (hnone : ∀ q ∈ later, matchOne s q = none) :
    matches_patterns s (pat :: rest) = b ∧ matches_patterns s later = false
      ∧ matches_patterns "keep.wav" ["*.wav", "!keep.wav"] = true
      ∧ matches_patterns "skip.wav" ["*.wav", "!keep.wav"] = true := by
  refine ⟨by simp [matches_patterns, h], ?_, by decide, by decide⟩
  induction later with
  | nil => rfl
  | cons q qs ih =>
    have hq := hnone q (List.mem_cons_self q qs)
    simp only [matches_patterns, hq]
    exact ih (fun r hr => hnone r (List.mem_cons_of_mem q hr))

/-- Witness for C1 (amended) at a concrete path and pattern list. -/
theorem C1_first_match_wins_witness :
    matchOne "keep.wav" "*.wav" = some true
      ∧ (matches_patterns "keep.wav" ["*.wav", "!keep.wav"] = true
          ∧ matches_patterns "keep.wav" ["nomatch.txt"] = false
          ∧ matches_patterns "keep.wav" ["*.wav", "!keep.wav"] = true
          ∧ matches_patterns "skip.wav" ["*.wav", "!keep.wav"] = true) :=
  ⟨by decide,
    C1_first_match_wins "keep.wav" "*.wav" true ["!keep.wav"] ["nomatch.txt"]
      (by decide) (by decide)⟩

theorem pyStartswith_iff {s pre : String} :
    pyStartswith s pre = true ↔ pre.data <+: s.data :=
  List.isPrefixOf_iff_prefix

theorem matches_dir_build (s : String) :
    matches_patterns s ["build/"] = (s == "build" || pyStartswith s "build/") := by
  have e1 : pyStartswith "build/" "!" = false := by decide
  have e2 : pyEndswith "build/" "/" = true := by decide
  have e3 : rstripSlash "build/" = "build" := by decide
  have e4 : ("build" ++ "/" : String) = "build/" := by decide
  cases hc : (s == "build" || pyStartswith s "build/") with
  | true =>
    have hm : matchOne s "build/" = some true := by
      simp [matchOne, e1, e2, e3, e4, hc]
    simp [matches_patterns, hm]
  | false =>
    have hm : matchOne s "build/" = none := by
      simp [matchOne, e1, e2, e3, e4, hc]
    simp [matches_patterns, hm]

theorem iter_mem_extends {pats relDir : List String} {T : Entries} {p : List String}
    (h : p ∈ iter_all_files pats relDir T) : ∃ q, q ≠ [] ∧ p = relDir ++ q := by
  induction T generalizing relDir p with
  | nil => simp [iter_all_files] at h
  | file f rest ih =>
    simp only [iter_all_files, List.mem_append] at h
    rcases h with h1 | h2
    · by_cases hc : (is_hidden (relDir ++ [f])
          || matches_patterns (posixOf (relDir ++ [f])) pats) = true
      · simp [hc] at h1
      · rw [Bool.not_eq_true] at hc
        simp [hc] at h1
        exact ⟨[f], by simp, h1⟩
    · exact ih h2
  | dir d children rest ih1 ih2 =>
    simp only [iter_all_files, List.mem_append] at h
    rcases h with h1 | h2
    · by_cases hc : (is_hidden (relDir ++ [d])
          || matches_patterns (posixOf (relDir ++ [d])) pats) = true
      · simp [hc] at h1
      · rw [Bool.not_eq_true] at hc
        simp [hc] at h1
        obtain ⟨q, hq, hpq⟩ := ih1 h1
        exact ⟨[d] ++ q, by simp, by simp [hpq]⟩
    · exact ih2 h2

/-- C7: the directory-style pattern `build/` matches a relative path
exactly when the path equals `build` or is nested under it, so the scan
prunes `build/`, `build/sub/` and every file beneath them while keeping
the sibling `build2/` and its contents. -/
theorem C7_dir_pattern (s : String) :
    (matches_patterns s ["build/"] = true ↔ (s = "build" ∨ pyStartswith s "build/" = true))
    ∧ iter_all_files ["build/"] [] c7Tree = [["build2", "c.wav"], ["root.wav"]] := by
  refine ⟨?_, by decide⟩
  rw [matches_dir_build]
  simp [Bool.or_eq_true, beq_iff_eq]

/-- C8: the root-anchored pattern `/secret.txt` matches the root-level
`secret.txt` and not `nested/secret.txt`; accordingly no scan ever yields
the root-level `secret.txt`, while a tree containing
`nested/secret.txt` does yield it. -/
theorem C8_root_anchored (cs rest : Entries) :
    matches_patterns "secret.txt" ["/secret.txt"] = true
    ∧ matches_patterns "nested/secret.txt" ["/secret.txt"] = false
    ∧ (∀ T : Entries, ["secret.txt"] ∉ iter_all_files ["/secret.txt"] [] T)
    ∧ ["nested", "secret.txt"]
        ∈ iter_all_files ["/secret.txt"] [] (.dir "nested" (.file "secret.txt" cs) rest) := by
  refine ⟨by decide, by decide, ?_, ?_⟩
  · intro T
    induction T with
    | nil => simp [iter_all_files]
    | file f rest2 ih =>
      simp only [iter_all_files, List.mem_append, List.nil_append]
      rintro (h1 | h2)
      · by_cases hf : f = "secret.txt"
        · subst hf
          have hc : (is_hidden ["secret.txt"]
              || matches_patterns (posixOf ["secret.txt"]) ["/secret.txt"]) = true := by decide
          simp [hc] at h1
        · by_cases hc : (is_hidden [f]
              || matches_patterns (posixOf [f]) ["/secret.txt"]) = true
          · simp [hc] at h1
          · rw [Bool.not_eq_true] at hc
            simp [hc] at h1
            exact hf h1.symm
      · exact ih h2
    | dir d ch rest2 ih1 ih2 =>
      simp only [iter_all_files, List.mem_append, List.nil_append]
      rintro (h1 | h2)
      · by_cases hc : (is_hidden [d]
            || matches_patterns (posixOf [d]) ["/secret.txt"]) = true
        · simp [hc] at h1
        · rw [Bool.not_eq_true] at hc
          simp [hc] at h1
          obtain ⟨q, hq, hpq⟩ := iter_mem_extends h1
          have hlen := congrArg List.length hpq
          simp [List.length_append] at hlen
          exact hq hlen
      · exact ih2 h2
  · have e1 : (is_hidden ["nested"]
        || matches_patterns (posixOf ["nested"]) ["/secret.txt"]) = false := by decide
    have e2 : (is_hidden ["nested", "secret.txt"]
        || matches_patterns (posixOf ["nested", "secret.txt"]) ["/secret.txt"]) = false := by
      decide
    simp [iter_all_files, e1, e2]

theorem data_of_leading_slash {p : String} (h : pyStartswith p "/" = true) :
    ∃ t, p.data = '/' :: t := by
  obtain ⟨u, hu⟩ := pyStartswith_iff.mp h
  exact ⟨u, by simpa using hu.symm⟩

theorem rstripSlash_of_leading_slash {p : String} (h : pyStartswith p "/" = true) :
    rstripSlash p = "" ∨ pyStartswith (rstripSlash p) "/" = true := by
  obtain ⟨t, ht⟩ := data_of_leading_slash h
  have hpref : (rstripSlash p).data <+: p.data := by
    have hsuf : (p.data.reverse.dropWhile (fun c => c = '/')) <:+ p.data.reverse :=
      List.dropWhile_suffix _
    exact List.reverse_suffix.mp (by simpa [rstripSlash] using hsuf)
  rcases hd : (rstripSlash p).data with _ | ⟨c, w⟩
  · exact Or.inl (String.ext (by simp [hd]))
  · right
    rw [hd] at hpref
    obtain ⟨u, hu⟩ := hpref
    rw [ht] at hu
    have hc : c = '/' := by
      have := congrArg (fun l => List.head? l) hu
      simpa using this
    subst hc
    rw [pyStartswith_iff, hd]
    exact ⟨w, by simp⟩

/-- C9: a pattern that both starts and ends with a separator (such as
`/build/`) is handled by the trailing-separator branch, whose comparison
text keeps its leading slash while relative posix paths are nonempty and
never begin with a slash — so the pattern matches nothing and its
presence anywhere in the pattern list never changes the verdict. -/
theorem C9_rooted_dir_pattern_inert (pat s : String) (l1 l2 : List String)
    (h1 : pyStartswith pat "/" = true) (h2 : pyEndswith pat "/" = true)
    (h3 : pyStartswith s "/" = false) (h4 : s ≠ "") :
    matchOne s pat = none
      ∧ matches_patterns s (l1 ++ pat :: l2) = matches_patterns s (l1 ++ l2) := by
  have hneg : pyStartswith pat "!" = false := by
    apply Bool.eq_false_iff.mpr
    intro hx
    obtain ⟨t, ht⟩ := data_of_leading_slash h1
    obtain ⟨u, hu⟩ := pyStartswith_iff.mp hx
    rw [ht] at hu
    have := congrArg (fun l => List.head? l) hu
    simp at this
  have hone : matchOne s pat = none := by
    rcases rstripSlash_of_leading_slash h1 with hr | hr
    · have hb : (s == rstripSlash pat) = false := by
        rw [hr]
        exact beq_eq_false_iff_ne.mpr h4
      have hsl : pyStartswith s (rstripSlash pat ++ "/") = false := by
        rw [hr, show (("" : String) ++ "/") = "/" from rfl]
        exact h3
      simp [matchOne, hneg, h2, hb, hsl]
    · have hb : (s == rstripSlash pat) = false := by
        apply beq_eq_false_iff_ne.mpr
        intro he
        rw [he, hr] at h3
        simp at h3
      have hsl : pyStartswith s (rstripSlash pat ++ "/") = false := by
        apply Bool.eq_false_iff.mpr
        intro hx
        have hx2 := pyStartswith_iff.mp hx
        have hr2 := pyStartswith_iff.mp hr
        have hmid : (rstripSlash pat).data <+: (rstripSlash pat ++ "/").data :=
          ⟨("/" : String).data, rfl⟩
        have hall := pyStartswith_iff.mpr (hr2.trans (hmid.trans hx2))
        rw [h3] at hall
        exact Bool.false_ne_true hall
      simp [matchOne, hneg, h2, hb, hsl]
  refine ⟨hone, ?_⟩
  induction l1 with
  | nil => simp [matches_patterns, hone]
  | cons q qs ih =>
    simp only [List.cons_append, matches_patterns]
    cases hmq : matchOne s q with
    | none => simpa [hmq] using ih
    | some b => simp [hmq]

/-- Witness for C9 at the pattern `/build/` and the path `build/x.wav`. -/
theorem C9_rooted_dir_pattern_inert_witness :
    pyStartswith "/build/" "/" = true
      ∧ (matchOne "build/x.wav" "/build/" = none
          ∧ matches_patterns "build/x.wav" ["/build/", "*.wav"]
              = matches_patterns "build/x.wav" ["*.wav"]) :=
  ⟨by decide,
    C9_rooted_dir_pattern_inert "/build/" "build/x.wav" [] ["*.wav"]
      (by decide) (by decide) (by decide) (by decide)⟩

theorem mainRun_cases (H : String → String) (render : List (String × ManifestValue) → String)
    (tree : Entries) (pats : List String) (ts : String) (st : FsState) :
    mainRun H render tree pats ts st =
      if specStale (compute_tree_hash H (iter_all_files pats [] tree)) st then
        ({ manifestFile :=
             some (render (build_manifest BASE_URL (iter_all_files pats [] tree)) ++ "\n"),
           hashFile := .content (compute_tree_hash H (iter_all_files pats [] tree) ++ "\n"),
           archive := st.archive ++ (match st.manifestFile with
             | some m => [("strudel." ++ ts ++ ".json", m)]
             | none => []) }, 0, wroteMsg)
      else (st, 0, upToDateMsg) := by
  obtain ⟨mf, hf, ar⟩ := st
  cases hf with
  | absent =>
    cases mf with
    | none =>
      simp [mainRun, specStale, read_stored_hash, archive_existing_manifest, write_stored_hash]
    | some m =>
      simp [mainRun, specStale, read_stored_hash, archive_existing_manifest, write_stored_hash]
  | unreadable =>
    cases mf with
    | none =>
      simp [mainRun, specStale, read_stored_hash, archive_existing_manifest, write_stored_hash]
    | some m =>
      simp [mainRun, specStale, read_stored_hash, archive_existing_manifest, write_stored_hash]
  | content v =>
    cases mf with
    | none =>
      simp [mainRun, specStale, read_stored_hash, archive_existing_manifest, write_stored_hash]
    | some m =>
      by_cases hv : pyStrip v = compute_tree_hash H (iter_all_files pats [] tree)
      · simp [mainRun, specStale, read_stored_hash, archive_existing_manifest,
          write_stored_hash, hv]
      · simp [mainRun, specStale, read_stored_hash, archive_existing_manifest,
          write_stored_hash, hv, bne_iff_ne]

/-- C4: a run regenerates exactly when the stored fingerprint is absent,
unreadable, or differs from the current fingerprint, or the canonical
manifest is absent (`specStale`); in that case — and only then — the old
manifest (when present) moves to a timestamped archive name, the new
manifest is written, and the current fingerprint is persisted, whether or
not the file set changed; an unreadable fingerprint file is recovered as
an absent one, never fatal, and the exit code is 0 on both branches. -/
theorem C4_regeneration_condition (H : String → String)
    (render : List (String × ManifestValue) → String) (tree : Entries)
    (pats : List String) (ts : String) (st : FsState) :
    mainRun H render tree pats ts st =
      if specStale (compute_tree_hash H (iter_all_files pats [] tree)) st then
        ({ manifestFile :=
             some (render (build_manifest BASE_URL (iter_all_files pats [] tree)) ++ "\n"),
           hashFile := .content (compute_tree_hash H (iter_all_files pats [] tree) ++ "\n"),
           archive := st.archive ++ (match st.manifestFile with
             | some m => [("strudel." ++ ts ++ ".json", m)]
             | none => []) }, 0, wroteMsg)
      else (st, 0, upToDateMsg) :=
  mainRun_cases H render tree pats ts st

theorem iter_hidden_file (pats relDir : List String) (name : String) (rest : Entries)
    (h : pyStartswith name "." = true) :
    iter_all_files pats relDir (.file name rest) = iter_all_files pats relDir rest := by
  have hh : is_hidden (relDir ++ [name]) = true := by
    simp [is_hidden, List.any_append, h]
  simp [iter_all_files, hh]

theorem iter_hidden_dir (pats relDir : List String) (name : String) (children rest : Entries)
    (h : pyStartswith name "." = true) :
    iter_all_files pats relDir (.dir name children rest) = iter_all_files pats relDir rest := by
  have hh : is_hidden (relDir ++ [name]) = true := by
    simp [is_hidden, List.any_append, h]
  simp [iter_all_files, hh]

theorem mainRun_stable (H : String → String)
    (render : List (String × ManifestValue) → String) (tree2 : Entries)
    (pats : List String) (ts2 : String) (st2 : FsState) (v m : String)
    (hv : st2.hashFile = .content v)
    (hcur : pyStrip v = compute_tree_hash H (iter_all_files pats [] tree2))
    (hm : st2.manifestFile = some m) :
    mainRun H render tree2 pats ts2 st2 = (st2, 0, upToDateMsg) := by
  rw [mainRun_cases]
  have hfalse : specStale (compute_tree_hash H (iter_all_files pats [] tree2)) st2 = false := by
    simp [specStale, hv, hm, hcur]
  simp [hfalse]

/-- C5 counterexample: the canonical manifest `strudel.json` is itself a
scanned non-hidden root-level file, so the claimed twice-run idempotence
fails from the reachable manifest-absent state (a fresh root, or after
the interruption of spec section 7): the first run writes the manifest,
the second run's scan therefore hashes a larger file-name set, sees a
fingerprint mismatch, and regenerates — reporting the written message
and creating an archive entry instead of reporting up-to-date with no
writes. -/
theorem C5_counterexample :
    (runTwice (fun s => s) (fun _ => "r") .nil [] "T1" "T2" ⟨none, .absent, []⟩).2.2
        = wroteMsg
      ∧ (runTwice (fun s => s) (fun _ => "r") .nil [] "T1" "T2" ⟨none, .absent, []⟩).1.archive
        = [("strudel.T2.json", "r\n")] := by decide

/-- C5 (amended): in the Stable state (stored fingerprint reads back
equal to the current one, manifest and fingerprint files present) a run
returns the state unchanged — no manifest write, no fingerprint write,
no archive entry — reporting up-to-date with exit 0; and running twice
in succession with no external tree change leaves everything unchanged
after the second run, which reports up-to-date, provided the canonical
manifest already existed before the first run — then the first run's
writes touch only the manifest's contents, the hidden fingerprint file
and the hidden archive, never the scanned file-name set (from a
manifest-absent start the second run regenerates once more, see the
counterexample). The hypothesis on `H` says the hex digest survives a
`strip` round-trip (true of `md5` hex digests, which contain no
whitespace). -/
theorem C5_stable_no_writes (H : String → String)
    (render : List (String × ManifestValue) → String) (tree : Entries)
    (pats : List String) (ts ts2 : String) (st : FsState) (m : String)
    (hH : pyStrip (compute_tree_hash H (iter_all_files pats [] (scannedTree st tree)) ++ "\n")
        = compute_tree_hash H (iter_all_files pats [] (scannedTree st tree)))
    (hm : st.manifestFile = some m) :
    (∀ v, st.hashFile = .content v
        → pyStrip v = compute_tree_hash H (iter_all_files pats [] (scannedTree st tree))
        → mainRun H render (scannedTree st tree) pats ts st = (st, 0, upToDateMsg))
    ∧ runTwice H render tree pats ts ts2 st
        = ((mainRun H render (scannedTree st tree) pats ts st).1, 0, upToDateMsg) := by
  constructor
  · intro v hv hcur
    exact mainRun_stable H render (scannedTree st tree) pats ts st v m hv hcur hm
  · have key : ∃ v2 m2,
        (mainRun H render (scannedTree st tree) pats ts st).1.hashFile = .content v2
        ∧ pyStrip v2 = compute_tree_hash H (iter_all_files pats [] (scannedTree st tree))
        ∧ (mainRun H render (scannedTree st tree) pats ts st).1.manifestFile = some m2
        ∧ scannedTree (mainRun H render (scannedTree st tree) pats ts st).1 tree
            = scannedTree st tree := by
      by_cases hs : specStale
          (compute_tree_hash H (iter_all_files pats [] (scannedTree st tree))) st = true
      · have hr1 : mainRun H render (scannedTree st tree) pats ts st
            = ({ manifestFile :=
                   some (render (build_manifest BASE_URL
                     (iter_all_files pats [] (scannedTree st tree))) ++ "\n"),
                 hashFile := .content
                   (compute_tree_hash H (iter_all_files pats [] (scannedTree st tree)) ++ "\n"),
                 archive := st.archive ++ (match st.manifestFile with
                   | some m2 => [("strudel." ++ ts ++ ".json", m2)]
                   | none => []) }, 0, wroteMsg) := by
          rw [mainRun_cases, if_pos hs]
        refine ⟨compute_tree_hash H (iter_all_files pats [] (scannedTree st tree)) ++ "\n",
          render (build_manifest BASE_URL (iter_all_files pats [] (scannedTree st tree)))
            ++ "\n", ?_, hH, ?_, ?_⟩
        · rw [hr1]
        · rw [hr1]
        · rw [hr1]
          simp [scannedTree, hm]
      · rw [Bool.not_eq_true] at hs
        have hr1 : mainRun H render (scannedTree st tree) pats ts st = (st, 0, upToDateMsg) := by
          rw [mainRun_cases, if_neg (by simp [hs])]
        rcases hhf : st.hashFile with _ | _ | v
        · rw [specStale, hhf] at hs
          simp at hs
        · rw [specStale, hhf] at hs
          simp at hs
        · have hps : pyStrip v
              = compute_tree_hash H (iter_all_files pats [] (scannedTree st tree)) := by
            rw [specStale, hhf, hm] at hs
            simpa [bne_eq_false_iff_eq] using hs
          refine ⟨v, m, ?_, hps, ?_, ?_⟩
          · rw [hr1]
            exact hhf
          · rw [hr1]
            exact hm
          · rw [hr1]
    obtain ⟨v2, m2, hv2, hcur2, hm2, hsc2⟩ := key
    simp only [runTwice]
    rw [hsc2]
    exact mainRun_stable H render (scannedTree st tree) pats ts2 _ v2 m2 hv2 hcur2 hm2

/-- Witness for C5 (amended): a concrete digest function, renderer and
state with the manifest present but a stale stored fingerprint; the
first run regenerates and the second run changes nothing, reporting
up-to-date. -/
theorem C5_stable_no_writes_witness :
    pyStrip (compute_tree_hash (fun _ => "h")
          (iter_all_files [] [] (scannedTree ⟨some "x", .content "bad", []⟩ .nil)) ++ "\n")
        = compute_tree_hash (fun _ => "h")
            (iter_all_files [] [] (scannedTree ⟨some "x", .content "bad", []⟩ .nil))
      ∧ runTwice (fun _ => "h") (fun _ => "r") .nil [] "T1" "T2"
            ⟨some "x", .content "bad", []⟩
          = ((mainRun (fun _ => "h") (fun _ => "r")
                (scannedTree ⟨some "x", .content "bad", []⟩ .nil) [] "T1"
                ⟨some "x", .content "bad", []⟩).1, 0, upToDateMsg) :=
  ⟨by decide,
    (C5_stable_no_writes (fun _ => "h") (fun _ => "r") .nil [] "T1" "T2"
      ⟨some "x", .content "bad", []⟩ "x" (by decide) rfl).2⟩

theorem addToGroup_keys (m : List (String × List String)) (k : String) (v : String) :
    (addToGroup m k v).map Prod.fst
      = if m.any (fun kv => kv.1 == k) then m.map Prod.fst else m.map Prod.fst ++ [k] := by
  by_cases hany : (m.any (fun kv => kv.1 == k)) = true
  · rw [addToGroup, if_pos hany, if_pos hany, List.map_map]
    refine List.map_congr_left (fun kv _ => ?_)
    simp only [Function.comp_apply]
    split <;> rfl
  · rw [addToGroup, if_neg hany, if_neg hany, List.map_append]
    rfl

theorem addToGroup_keys_mono {m : List (String × List String)} {x k : String} {v : String}
    (h : x ∈ m.map Prod.fst) : x ∈ (addToGroup m k v).map Prod.fst := by
  rw [addToGroup_keys]
  split
  · exact h
  · exact List.mem_append_left _ h

theorem addToGroup_key_self (m : List (String × List String)) (k : String) (v : String) :
    k ∈ (addToGroup m k v).map Prod.fst := by
  rw [addToGroup_keys]
  by_cases hany : (m.any (fun kv => kv.1 == k)) = true
  · rw [if_pos hany]
    obtain ⟨kv, hkv, hbeq⟩ := List.any_eq_true.mp hany
    have hk : kv.1 = k := by simpa using hbeq
    exact hk ▸ List.mem_map_of_mem Prod.fst hkv
  · rw [if_neg hany]
    exact List.mem_append_right _ (List.mem_singleton.mpr rfl)

theorem perDirStep_keys_mono {acc : List (String × List String)} {x : String}
    {q : List String} (h : x ∈ acc.map Prod.fst) :
    x ∈ (perDirStep acc q).map Prod.fst := by
  unfold perDirStep
  split
  · exact h
  · split
    · exact h
    · split
      · exact h
      · exact addToGroup_keys_mono h

theorem perDir_keys_mono {x : String} :
    ∀ (l : List (List String)) (acc : List (String × List String)),
      x ∈ acc.map Prod.fst → x ∈ (l.foldl perDirStep acc).map Prod.fst := by
  intro l
  induction l with
  | nil => exact fun acc h => h
  | cons q qs ih => exact fun acc h => ih _ (perDirStep_keys_mono h)

theorem perDir_key_of_mem {p : List String}
    (hsuf : pyLower (pySuffix (p.getLastD "")) = ".wav")
    (hlen : ¬ p.length < 2) (hhid : pyStartswith (p.headD "") "." = false) :
    ∀ (l : List (List String)) (acc : List (String × List String)), p ∈ l →
      (p.headD "") ∈ (l.foldl perDirStep acc).map Prod.fst := by
  intro l
  induction l with
  | nil => exact fun acc hp => absurd hp (List.not_mem_nil p)
  | cons q qs ih =>
    intro acc hp
    rcases List.mem_cons.mp hp with hq | hq
    · subst hq
      rw [List.foldl_cons]
      apply perDir_keys_mono
      have hstep : perDirStep acc p = addToGroup acc (p.headD "") (posixOf p) := by
        unfold perDirStep
        rw [if_neg (fun hne => hne hsuf), if_neg hlen,
          if_neg (fun hc => by rw [hc] at hhid; exact Bool.noConfusion hhid)]
      rw [hstep]
      exact addToGroup_key_self acc (p.headD "") (posixOf p)
    · rw [List.foldl_cons]
      exact ih _ hq

theorem odInsert_head {acc : List (String × ManifestValue)} {w : ManifestValue}
    (k : String) (v : ManifestValue) (h : acc.head? = some ("_base", w)) :
    (odInsert acc k v).head? = some ("_base", if k = "_base" then v else w) := by
  cases acc with
  | nil => simp at h
  | cons a rest =>
    have ha : a = ("_base", w) := by simpa using h
    subst ha
    by_cases hany : (((("_base", w)) :: rest).any (fun kv => kv.1 == k)) = true
    · rw [odInsert, if_pos hany, List.map_cons]
      simp only [List.head?_cons, Option.some.injEq]
      by_cases hk : k = "_base"
      · subst hk; simp
      · have hb : (("_base", w).1 == k) = false := beq_eq_false_iff_ne.mpr (Ne.symm hk)
        simp [hb, hk]
    · rw [odInsert, if_neg hany]
      have hk : ¬ k = "_base" := by
        intro hkk
        subst hkk
        exact hany (List.any_eq_true.mpr ⟨("_base", w), List.mem_cons_self _ _, by simp⟩)
      simp [hk]

theorem odFold_head (f : String → ManifestValue) :
    ∀ (ks : List String) (acc : List (String × ManifestValue)) (w : ManifestValue),
      acc.head? = some ("_base", w) →
      (ks.foldl (fun a k => odInsert a k (f k)) acc).head?
        = some ("_base", if "_base" ∈ ks then f "_base" else w) := by
  intro ks
  induction ks with
  | nil => intro acc w h; simpa using h
  | cons k ks ih =>
    intro acc w h
    rw [List.foldl_cons]
    by_cases hk : k = "_base"
    · subst hk
      have h2 := odInsert_head "_base" (f "_base") h
      rw [if_pos rfl] at h2
      rw [ih _ _ h2]
      by_cases hmem : "_base" ∈ ks <;> simp [hmem]
    · have h2 := odInsert_head k (f k) h
      rw [if_neg hk] at h2
      rw [ih _ _ h2]
      simp [List.mem_cons, Ne.symm hk]

/-- C10: if the scan yields a non-hidden `.wav` path whose top-level
directory is literally `_base`, `build_manifest` overwrites the reserved
base-URL entry in place: the first key is still `"_base"` but now holds
that group's file list instead of the base URL, so the
first-key-holds-base-URL property needs the precondition that no
top-level directory is named `_base`. -/
theorem C10_base_key_overwritten (b : String) (scanned : List (List String)) (p : List String)
    (hp : p ∈ scanned) (hhead : p.headD "" = "_base")
    (hsuf : pyLower (pySuffix (p.getLastD "")) = ".wav") (hlen : 2 ≤ p.length) :
    ∃ l, (build_manifest b scanned).head? = some ("_base", ManifestValue.files l) := by
  have hlen2 : ¬ p.length < 2 := Nat.not_lt.mpr hlen
  have hhid : pyStartswith (p.headD "") "." = false := by rw [hhead]; decide
  have hkey : "_base" ∈ (scanned.foldl perDirStep []).map Prod.fst := by
    rw [← hhead]
    exact perDir_key_of_mem hsuf hlen2 hhid scanned [] hp
  have hkeys2 : (((scanned.foldl perDirStep []).map
        (fun kv => (kv.1, sortCasefold kv.2))).map Prod.fst)
      = (scanned.foldl perDirStep []).map Prod.fst := by
    rw [List.map_map]
    exact List.map_congr_left (fun kv _ => rfl)
  have hsorted : "_base" ∈ pysorted (((scanned.foldl perDirStep []).map
      (fun kv => (kv.1, sortCasefold kv.2))).map Prod.fst) := by
    refine (pysorted_perm _).mem_iff.mpr ?_
    rw [hkeys2]
    exact hkey
  have hstart : (odInsert [] "_base" (ManifestValue.url b)).head?
      = some ("_base", ManifestValue.url b) := by
    rw [odInsert]
    simp
  have hfold := odFold_head
    (fun k => ManifestValue.files
      ((((scanned.foldl perDirStep []).map
          (fun kv => (kv.1, sortCasefold kv.2))).lookup k).getD []))
    (pysorted (((scanned.foldl perDirStep []).map
      (fun kv => (kv.1, sortCasefold kv.2))).map Prod.fst))
    (odInsert [] "_base" (ManifestValue.url b)) (ManifestValue.url b) hstart
  rw [if_pos hsorted] at hfold
  exact ⟨_, hfold⟩

/-- Witness for C10: a scan containing `_base/a.wav` makes the first
manifest entry a file list rather than the base URL. -/
theorem C10_base_key_overwritten_witness :
    (["_base", "a.wav"] : List String) ∈ [["_base", "a.wav"]]
      ∧ ∃ l, (build_manifest "u" [["_base", "a.wav"]]).head?
          = some ("_base", ManifestValue.files l) :=
  ⟨by decide,
    C10_base_key_overwritten "u" [["_base", "a.wav"]] ["_base", "a.wav"]
      (by decide) (by decide) (by decide) (by decide)⟩
